import Mathlib

/-!
# Verification of the GIP retrieval engine (`src/retrieval/gip_retrieval.py`)

A shallow embedding of the retrieval code of this repository. Real-valued
embedding entries are modelled as rationals (`ℚ`), argument-index ids as
integers (`ℤ`). Tensors are lists; a batch of corpus vectors is a list of
lists. `torch.topk(t, k)` raises a runtime error when `k` exceeds the length
of `t`, so the top-k selection is modelled as an `Option`, `none` standing
for the raised error. Tie-breaking of `torch.topk` / `torch.argsort` among
equal scores is unspecified by torch; the embedding fixes the deterministic
choice "equal scores keep ascending index order".
-/

namespace GipRetrieval

/-- `torch.einsum('ij,j->i', ...)` applied to one row: the inner product of
two vectors, truncating at the shorter length (in the source both always
have the same length). -/
def dot (xs ys : List ℚ) : ℚ :=
  ((xs.zip ys).map (fun p => p.1 * p.2)).sum

/-- `(corpus_arg_idxs == query_arg_idx) * corpus_embs` applied to one corpus
row `ce` with argument ids `ca` against the query argument ids `qa`:
dimension `j` keeps `ce[j]` when `ca[j] == qa[j]` and is masked to `0`
otherwise (`gip_retrieval.py` line 119). -/
def maskedEmb (qa : List ℤ) (ce : List ℚ) (ca : List ℤ) : List ℚ :=
  ((ca.zip qa).zip ce).map (fun p => if p.1.1 = p.1.2 then p.2 else 0)

/-- Exact gated inner product of one query row against one corpus row:
mask the corpus row by argument-id agreement, then take the inner product
with the query embedding (`gip_retrieval.py` lines 119-120 for one row). -/
def gipScore (qe : List ℚ) (qa : List ℤ) (ce : List ℚ) (ca : List ℤ) : ℚ :=
  dot (maskedEmb qa ce ca) qe

/-- Exact gated-inner-product scores of one query against the whole corpus
(`gip_retrieval.py` lines 119-120). -/
def gipScoresAll (qe : List ℚ) (qa : List ℤ) (corpus : List (List ℚ))
    (cargs : List (List ℤ)) : List ℚ :=
  (corpus.zip cargs).map (fun p => gipScore qe qa p.1 p.2)

/-- The ordering used to model `torch.topk` / descending `torch.argsort` on
a score list paired with its indices: larger score first, ties broken by
ascending index (torch leaves tie order unspecified; the embedding fixes
this deterministic choice). -/
def rankLe (a b : ℕ × ℚ) : Prop :=
  b.2 < a.2 ∨ (a.2 = b.2 ∧ a.1 ≤ b.1)

instance : DecidableRel rankLe := fun a b => by
  unfold rankLe; infer_instance

instance : IsTotal (ℕ × ℚ) rankLe := by
  constructor
  intro a b
  rcases lt_trichotomy a.2 b.2 with h | h | h
  · exact Or.inr (Or.inl h)
  · rcases Nat.le_total a.1 b.1 with h' | h'
    · exact Or.inl (Or.inr ⟨h, h'⟩)
    · exact Or.inr (Or.inr ⟨h.symm, h'⟩)
  · exact Or.inl (Or.inl h)

instance : IsTrans (ℕ × ℚ) rankLe := by
  constructor
  rintro a b c (hab | ⟨hab, hab'⟩) (hbc | ⟨hbc, hbc'⟩)
  · exact Or.inl (lt_trans hbc hab)
  · exact Or.inl (hbc ▸ hab)
  · exact Or.inl (hab ▸ hbc)
  · exact Or.inr ⟨hab.trans hbc, hab'.trans hbc'⟩

/-- A score list annotated with positions: entry `i` becomes `(i, scores[i])`. -/
def indexed (scores : List ℚ) : List (ℕ × ℚ) :=
  (List.range scores.length).map (fun i => (i, scores.getD i 0))

/-- Descending stable sort of indexed scores: the order in which
`torch.argsort(descending=True)` / `torch.topk` enumerate entries. -/
def sortDesc (l : List (ℕ × ℚ)) : List (ℕ × ℚ) :=
  l.insertionSort rankLe

/-- `torch.topk(scores, k)` as (index, value) pairs; `none` models the
runtime error torch raises when `k` exceeds the number of entries. -/
def topkPairs (scores : List ℚ) (k : ℕ) : Option (List (ℕ × ℚ)) :=
  if k ≤ scores.length then some ((sortDesc (indexed scores)).take k) else none

/-- `int((query_emb > args.theta).sum())` (`gip_retrieval.py` line 130):
the number of query dimensions strictly above the pruning threshold. -/
def numIdx (qe : List ℚ) (theta : ℚ) : ℕ :=
  qe.countP (fun x => theta < x)

/-- `torch.topk(query_emb, num_idx).indices.tolist()` (line 131): the
positions of the `numIdx qe theta` largest query entries. `numIdx` never
exceeds the query length, so this `topk` cannot fail. -/
def importantIdx (qe : List ℚ) (theta : ℚ) : List ℕ :=
  ((sortDesc (indexed qe)).take (numIdx qe theta)).map Prod.fst

/-- Advanced indexing `t[idxs]` on a rational vector. -/
def gatherQ (l : List ℚ) (idxs : List ℕ) : List ℚ :=
  idxs.map (fun j => l.getD j 0)

/-- Advanced indexing `t[idxs]` on an integer vector. -/
def gatherZ (l : List ℤ) (idxs : List ℕ) : List ℤ :=
  idxs.map (fun j => l.getD j 0)

/-- Approximate GIP scores restricted to the important dimensions `imp`
(lines 135-136): both the gating comparison and the inner product use only
the gathered dimensions. -/
def prunedGipScoresAll (qe : List ℚ) (qa : List ℤ) (corpus : List (List ℚ))
    (cargs : List (List ℤ)) (imp : List ℕ) : List ℚ :=
  (corpus.zip cargs).map (fun p =>
    dot (maskedEmb (gatherZ qa imp) (gatherQ p.1 imp) (gatherZ p.2 imp))
      (gatherQ qe imp))

/-- Plain inner-product scores over all dimensions, ignoring argument
indices (line 74 and line 139). -/
def ipScoresAll (qe : List ℚ) (corpus : List (List ℚ)) : List ℚ :=
  corpus.map (fun ce => dot ce qe)

/-- The first-stage scores in the `theta != 0` branch (lines 133-139):
plain IP over all dimensions when `args.IP` is set, otherwise the
theta-pruned GIP scores. -/
def approxScores (qe : List ℚ) (qa : List ℤ) (corpus : List (List ℚ))
    (cargs : List (List ℤ)) (theta : ℚ) (ip : Bool) : List ℚ :=
  if ip then ipScoresAll qe corpus
  else prunedGipScoresAll qe qa corpus cargs (importantIdx qe theta)

/-- The per-query loop body of `GIP_retrieval` (lines 115-159), applied to
one query with already-padded argument indices. Returns the
`(sort_candidates, sort_scores)` pair stored in the result dictionaries;
`none` models a raised `torch.topk` error. -/
def gipQuery (qe : List ℚ) (qa : List ℤ) (corpus : List (List ℚ))
    (cargs : List (List ℤ)) (theta : ℚ) (ip rerank : Bool)
    (agipTopk topk : ℕ) : Option (List ℕ × List ℚ) :=
  if theta = 0 then
    let scores := gipScoresAll qe qa corpus cargs
    (topkPairs scores topk).map (fun ps =>
      let si := ps.map Prod.fst
      (si, si.map (fun i => scores.getD i 0)))
  else
    let pscores := approxScores qe qa corpus cargs theta ip
    if rerank then
      (topkPairs pscores agipTopk).bind (fun cps =>
        let candidates := cps.map Prod.fst
        let scores := candidates.map (fun c =>
          gipScore qe qa (corpus.getD c []) (cargs.getD c []))
        (topkPairs scores topk).map (fun sps =>
          let si := sps.map Prod.fst
          (si.map (fun r => candidates.getD r 0),
            si.map (fun r => scores.getD r 0))))
    else
      (topkPairs pscores topk).map (fun ps =>
        let si := ps.map Prod.fst
        (si, si.map (fun i => pscores.getD i 0)))

/-- The per-query computation under `args.brute_force` (lines 89-90 force
`theta = 0`, after which the `theta == 0` branch of lines 117-126 runs):
exact GIP scores over all dimensions followed by top-k selection. -/
def bruteForceGipQuery (qe : List ℚ) (qa : List ℤ) (corpus : List (List ℚ))
    (cargs : List (List ℤ)) (topk : ℕ) : Option (List ℕ × List ℚ) :=
  let scores := gipScoresAll qe qa corpus cargs
  (topkPairs scores topk).map (fun ps =>
    let si := ps.map Prod.fst
    (si, si.map (fun i => scores.getD i 0)))

/-- `torch.argsort(scores, descending=True)` (line 75). -/
def argsortDesc (scores : List ℚ) : List ℕ :=
  (sortDesc (indexed scores)).map Prod.fst

/-- The per-query loop body of `IP_retrieval` (lines 74-79): plain
inner-product scores, descending argsort, then the `[:topk]` slice (Python
slicing truncates silently, so this is total). -/
def ipQuery (qe : List ℚ) (corpus : List (List ℚ)) (topk : ℕ) :
    List ℕ × List ℚ :=
  let scores := ipScoresAll qe corpus
  let sortCandidates := (argsortDesc scores).take topk
  (sortCandidates, sortCandidates.map (fun i => scores.getD i 0))

/-- The rerank stage of `PQ_IP_retrieval` (lines 206-215) for one query
with the candidate row returned by the external product-quantization
index. -/
def pqRerankQuery (qe : List ℚ) (qa : List ℤ) (corpus : List (List ℚ))
    (cargs : List (List ℤ)) (candidate : List ℕ) (topk : ℕ) :
    Option (List ℕ × List ℚ) :=
  let scores := candidate.map (fun c =>
    gipScore qe qa (corpus.getD c []) (cargs.getD c []))
  (topkPairs scores topk).map (fun sps =>
    let si := sps.map Prod.fst
    (si.map (fun r => candidate.getD r 0),
      si.map (fun r => scores.getD r 0)))

/-- The non-rerank branch of `PQ_IP_retrieval` (lines 220-221): the rows
returned by the external index are sliced with `[:topk]`, which truncates
silently. -/
def pqNoRerankQuery (scoresRow : List ℚ) (candRow : List ℕ) (topk : ℕ) :
    List ℕ × List ℚ :=
  (candRow.take topk, scoresRow.take topk)

/-- Modelled from the spec (§4.3 Reranker): "given a query and a candidate
shortlist, recompute exact GIP scores (full gating, all dimensions)
restricted to the shortlist only, then select the final top-K from that
shortlist" — the brute-force exact-GIP ranking restricted to a given
shortlist, used as the reference side of the rerank refinement claim. -/
def bruteOnShortlist (qe : List ℚ) (qa : List ℤ) (corpus : List (List ℚ))
    (cargs : List (List ℤ)) (shortlist : List ℕ) (topk : ℕ) :
    Option (List ℕ × List ℚ) :=
  let scores := shortlist.map (fun c =>
    gipScore qe qa (corpus.getD c []) (cargs.getD c []))
  (topkPairs scores topk).map (fun sps =>
    let si := sps.map Prod.fst
    (si.map (fun r => shortlist.getD r 0),
      si.map (fun r => scores.getD r 0)))

/-- `torch.nn.functional.pad(arg, (0, clsDim), mode='constant', value=1)`
(lines 111-113 and 181-183): right-pad an argument-index row with the
constant id `1` up to the full embedding dimension. -/
def padArg (arg : List ℤ) (clsDim : ℕ) : List ℤ :=
  arg ++ List.replicate clsDim 1

/-- The corpus shard slice of `main` (lines 292-306) with
`s = len(docids) // total_shrad`: shard `idx < total - 1` is
`l[s*idx : s*(idx+1)]` and the last shard is `l[s*idx:]`. -/
def shardSlice {α : Type} (l : List α) (total idx : ℕ) : List α :=
  let s := l.length / total
  if idx = total - 1 then l.drop (s * idx) else (l.drop (s * idx)).take s

/-- The output-writing loop of `main` (lines 338-342) for one query: walk
the ranked result with its 0-based `enumerate` rank, resolve each local
index to a DocId, and emit `(doc_id, rank+1, score[rank])` unless the
DocId equals the query id. -/
def writeRows {Id : Type} [DecidableEq Id] (qid dflt : Id) (docids : List Id)
    (result : List ℕ) (score : List ℚ) : List (Id × ℕ × ℚ) :=
  (List.range result.length).filterMap (fun rank =>
    let docid := docids.getD (result.getD rank 0) dflt
    if docid ≠ qid then some (docid, rank + 1, score.getD rank 0) else none)

/-- The retrieval-mode dispatch of `main` (lines 321-328) for one query in
the non-PQ configuration: when the query argument indices failed to load
(`query_arg_idxs is None`), fall back to `IP_retrieval`, otherwise run
`GIP_retrieval`. -/
def dispatchQuery (queryArg : Option (List ℤ)) (qe : List ℚ)
    (corpus : List (List ℚ)) (cargs : List (List ℤ)) (theta : ℚ)
    (ip rerank : Bool) (agipTopk topk : ℕ) : Option (List ℕ × List ℚ) :=
  match queryArg with
  | some qa => gipQuery qe qa corpus cargs theta ip rerank agipTopk topk
  | none => some (ipQuery qe corpus topk)

/-- Plain descending order on scores, used to state what `IP_retrieval`
returns: the largest inner products first. -/
def scoreGe (a b : ℚ) : Prop := b ≤ a

instance : DecidableRel scoreGe := fun a b => by
  unfold scoreGe; infer_instance

instance : IsTotal ℚ scoreGe :=
  ⟨fun a b => (le_total b a).imp id id⟩

instance : IsTrans ℚ scoreGe :=
  ⟨fun _ _ _ h h' => le_trans h' h⟩

instance : IsAntisymm ℚ scoreGe :=
  ⟨fun _ _ h h' => le_antisymm h' h⟩

theorem gipScore_nil : gipScore [] [] [] [] = 0 := rfl

theorem gipScore_cons (q c : ℚ) (a b : ℤ) (qe ce : List ℚ) (qa ca : List ℤ) :
    gipScore (q :: qe) (a :: qa) (c :: ce) (b :: ca)
      = (if b = a then c * q else 0) + gipScore qe qa ce ca := by
  simp only [gipScore, maskedEmb, dot, List.zip_cons_cons, List.map_cons,
    List.sum_cons]
  by_cases h : b = a <;> simp [h]

/-- Closed form of `gipScore` on vectors of one common length `D`: the sum
over dimensions of the gated products. -/
theorem gipScore_eq_sum (D : ℕ) (qe ce : List ℚ) (qa ca : List ℤ)
    (h1 : qe.length = D) (h2 : qa.length = D) (h3 : ce.length = D)
    (h4 : ca.length = D) :
    gipScore qe qa ce ca
      = ∑ j ∈ Finset.range D,
          (if ca.getD j 0 = qa.getD j 0 then ce.getD j 0 * qe.getD j 0 else 0) := by
  induction D generalizing qe ce qa ca with
  | zero =>
      rw [List.length_eq_zero] at h1 h2 h3 h4
      subst h1; subst h2; subst h3; subst h4
      simp [gipScore_nil]
  | succ n ih =>
      obtain ⟨q, qe', rfl⟩ := List.exists_of_length_succ qe h1
      obtain ⟨a, qa', rfl⟩ := List.exists_of_length_succ qa h2
      obtain ⟨c, ce', rfl⟩ := List.exists_of_length_succ ce h3
      obtain ⟨b, ca', rfl⟩ := List.exists_of_length_succ ca h4
      simp only [List.length_cons, Nat.succ.injEq] at h1 h2 h3 h4
      rw [gipScore_cons, Finset.sum_range_succ']
      simp only [List.getD_cons_succ, List.getD_cons_zero]
      rw [ih qe' ce' qa' ca' h1 h2 h3 h4]
      ring

theorem length_gipScoresAll (qe : List ℚ) (qa : List ℤ) (corpus : List (List ℚ))
    (cargs : List (List ℤ)) (h : cargs.length = corpus.length) :
    (gipScoresAll qe qa corpus cargs).length = corpus.length := by
  simp [gipScoresAll, h]

theorem getD_gipScoresAll (qe : List ℚ) (qa : List ℤ) (corpus : List (List ℚ))
    (cargs : List (List ℤ)) (i : ℕ) (hlen : cargs.length = corpus.length)
    (hi : i < corpus.length) :
    (gipScoresAll qe qa corpus cargs).getD i 0
      = gipScore qe qa (corpus.getD i []) (cargs.getD i []) := by
  have hi' : i < (gipScoresAll qe qa corpus cargs).length := by
    rw [length_gipScoresAll qe qa corpus cargs hlen]; exact hi
  rw [List.getD_eq_getElem _ _ hi', List.getD_eq_getElem _ _ hi,
    List.getD_eq_getElem _ _ (hlen ▸ hi)]
  simp [gipScoresAll, List.getElem_map, List.getElem_zip]

theorem length_indexed (scores : List ℚ) : (indexed scores).length = scores.length := by
  simp [indexed]

theorem snd_of_mem_indexed {scores : List ℚ} {p : ℕ × ℚ} (h : p ∈ indexed scores) :
    p.2 = scores.getD p.1 0 := by
  simp only [indexed, List.mem_map, List.mem_range] at h
  obtain ⟨i, _, rfl⟩ := h
  rfl

theorem sortDesc_perm (l : List (ℕ × ℚ)) : (sortDesc l).Perm l :=
  List.perm_insertionSort rankLe l

theorem sortDesc_sorted (l : List (ℕ × ℚ)) : (sortDesc l).Pairwise rankLe :=
  List.sorted_insertionSort rankLe l

theorem snd_of_mem_sortDesc_indexed {scores : List ℚ} {p : ℕ × ℚ}
    (h : p ∈ sortDesc (indexed scores)) : p.2 = scores.getD p.1 0 :=
  snd_of_mem_indexed (((sortDesc_perm (indexed scores)).mem_iff).mp h)

theorem topkPairs_eq_some {scores : List ℚ} {k : ℕ} {ps : List (ℕ × ℚ)}
    (h : topkPairs scores k = some ps) :
    ps.length = k ∧ ps.Pairwise rankLe ∧ ∀ p ∈ ps, p.2 = scores.getD p.1 0 := by
  unfold topkPairs at h
  split at h
  case isTrue hk =>
    obtain rfl : (sortDesc (indexed scores)).take k = ps := by
      injection h
    refine ⟨?_, ?_, ?_⟩
    · rw [List.length_take, (sortDesc_perm (indexed scores)).length_eq,
        length_indexed]
      exact Nat.min_eq_left hk
    · exact List.Pairwise.sublist (List.take_sublist k _)
        (sortDesc_sorted (indexed scores))
    · intro p hp
      exact snd_of_mem_sortDesc_indexed ((List.take_sublist k _).mem hp)
  case isFalse => exact absurd h (by simp)

theorem topkPairs_isSome (scores : List ℚ) (k : ℕ) (hk : k ≤ scores.length) :
    topkPairs scores k = some ((sortDesc (indexed scores)).take k) := by
  simp [topkPairs, hk]

theorem topkPairs_eq_none (scores : List ℚ) (k : ℕ) (hk : scores.length < k) :
    topkPairs scores k = none := by
  simp only [topkPairs, ite_eq_right_iff]
  intro h
  exact absurd h (Nat.not_le.mpr hk)

/-- Looking the scores of a top-k result back up in the score list (the
source's `scores[sort_idx]`) returns the stored pair values. -/
theorem lookup_topkPairs {scores : List ℚ} {k : ℕ} {ps : List (ℕ × ℚ)}
    (h : topkPairs scores k = some ps) :
    (ps.map Prod.fst).map (fun i => scores.getD i 0) = ps.map Prod.snd := by
  rw [List.map_map]
  exact List.map_congr_left (fun p hp => ((topkPairs_eq_some h).2.2 p hp).symm)

/-- The score components of a top-k result are non-increasing. -/
theorem topkPairs_scores_sorted {scores : List ℚ} {k : ℕ} {ps : List (ℕ × ℚ)}
    (h : topkPairs scores k = some ps) :
    (ps.map Prod.snd).Pairwise (fun a b => b ≤ a) := by
  refine List.Pairwise.map Prod.snd ?_ (topkPairs_eq_some h).2.1
  rintro a b (hab | ⟨hab, -⟩)
  · exact le_of_lt hab
  · exact le_of_eq hab.symm

/-- A pairwise non-increasing list is non-increasing at adjacent ranks. -/
theorem pairwise_ge_adjacent {s : List ℚ} (h : s.Pairwise (fun a b => b ≤ a)) :
    ∀ r, r + 1 < s.length → s.getD (r + 1) 0 ≤ s.getD r 0 := by
  intro r hr
  have hr' : r < s.length := Nat.lt_of_succ_lt hr
  rw [List.getD_eq_getElem _ _ hr, List.getD_eq_getElem _ _ hr']
  exact List.pairwise_iff_getElem.mp h r (r + 1) hr' hr (Nat.lt_succ_self r)

/-- The count of entries above the threshold equals the cardinality of the
important-dimension index set `{j : qe[j] > theta}`. -/
theorem numIdx_eq_card (qe : List ℚ) (theta : ℚ) :
    numIdx qe theta
      = ((Finset.range qe.length).filter (fun j => theta < qe.getD j 0)).card := by
  induction qe with
  | nil => simp [numIdx]
  | cons x t ih =>
      rw [Finset.card_filter] at ih ⊢
      simp only [numIdx, List.countP_cons] at ih ⊢
      rw [List.length_cons, Finset.sum_range_succ']
      simp only [List.getD_cons_succ, List.getD_cons_zero]
      rw [← ih]
      by_cases h : theta < x <;> simp [h, Nat.add_comm]

/-- C1: with `theta = 0` the score of candidate `i` is the gated inner
product: the sum over dimensions `j` of `candidates[i][j] * q[j]` where the
candidate's argument id agrees with the query's, and `0` elsewhere; on the
hand-built example query `[1,2,3]` / arg `[0,0,1]` against candidate
`[1,1,1]` / arg `[0,1,1]` the score is `4`. -/
theorem C1_exact_gip_score (D : ℕ) (qe : List ℚ) (qa : List ℤ)
    (corpus : List (List ℚ)) (cargs : List (List ℤ)) (i : ℕ)
    (hlen : cargs.length = corpus.length) (hi : i < corpus.length)
    (hq : qe.length = D) (hqa : qa.length = D)
    (hce : (corpus.getD i []).length = D) (hca : (cargs.getD i []).length = D) :
    (gipScoresAll qe qa corpus cargs).getD i 0
      = ∑ j ∈ Finset.range D,
          (if (cargs.getD i []).getD j 0 = qa.getD j 0
            then (corpus.getD i []).getD j 0 * qe.getD j 0 else 0)
    ∧ gipScore [1, 2, 3] [0, 0, 1] [1, 1, 1] [0, 1, 1] = 4 := by
  constructor
  · rw [getD_gipScoresAll qe qa corpus cargs i hlen hi]
    exact gipScore_eq_sum D qe _ qa _ hq hqa hce hca
  · norm_num [gipScore, maskedEmb, dot]

theorem C1_exact_gip_score_witness :
    (gipScoresAll [1, 2, 3] [0, 0, 1] [[1, 1, 1]] [[0, 1, 1]]).getD 0 0
      = ∑ j ∈ Finset.range 3,
          (if (([[(0 : ℤ), 1, 1]].getD 0 []).getD j 0 = [(0 : ℤ), 0, 1].getD j 0)
            then (([[(1 : ℚ), 1, 1]].getD 0 []).getD j 0 * [(1 : ℚ), 2, 3].getD j 0)
            else 0)
    ∧ gipScore [1, 2, 3] [0, 0, 1] [1, 1, 1] [0, 1, 1] = 4 :=
  C1_exact_gip_score 3 [1, 2, 3] [0, 0, 1] [[1, 1, 1]] [[0, 1, 1]] 0
    (by decide) (by decide) rfl rfl rfl rfl

/-- C2: raising `theta` never increases the important-dimension count
`|{j : qe[j] > theta}|` (stated both on the code's count of entries and on
the index set), and at `theta = 0` the selector's result is exactly the
brute-force exact-GIP result over all dimensions. -/
theorem C2_theta_monotone_and_zero_bruteforce (qe : List ℚ) (qa : List ℤ)
    (corpus : List (List ℚ)) (cargs : List (List ℤ)) (theta1 theta2 : ℚ)
    (ip rerank : Bool) (agipTopk topk : ℕ) (h : theta1 ≤ theta2) :
    numIdx qe theta2 ≤ numIdx qe theta1
    ∧ numIdx qe theta1
        = ((Finset.range qe.length).filter (fun j => theta1 < qe.getD j 0)).card
    ∧ gipQuery qe qa corpus cargs 0 ip rerank agipTopk topk
        = bruteForceGipQuery qe qa corpus cargs topk := by
  refine ⟨?_, numIdx_eq_card qe theta1, ?_⟩
  · refine List.countP_mono_left (fun x _ hx => ?_)
    simp only [decide_eq_true_eq] at hx ⊢
    exact lt_of_le_of_lt h hx
  · simp [gipQuery, bruteForceGipQuery]

theorem C2_theta_monotone_and_zero_bruteforce_witness :
    numIdx [1, 2] 1 ≤ numIdx [1, 2] 0
    ∧ numIdx [1, 2] 0
        = ((Finset.range ([(1 : ℚ), 2].length)).filter
            (fun j => 0 < [(1 : ℚ), 2].getD j 0)).card
    ∧ gipQuery [1, 2] [0, 1] [[1, 1], [2, 0]] [[0, 1], [0, 1]] 0 false false 10 2
        = bruteForceGipQuery [1, 2] [0, 1] [[1, 1], [2, 0]] [[0, 1], [0, 1]] 2 :=
  C2_theta_monotone_and_zero_bruteforce [1, 2] [0, 1] [[1, 1], [2, 0]]
    [[0, 1], [0, 1]] 0 1 false false 10 2 (by norm_num)

/-- C3: the rerank stage recomputes exact full-dimension gated GIP scores on
the shortlist produced by the first stage, so its output is exactly the
brute-force exact-GIP top-K restricted to that shortlist — whatever
shortlist the approximate stage produced (in particular one that already
contains the true top-K). -/
theorem C3_rerank_refines_bruteforce (qe : List ℚ) (qa : List ℤ)
    (corpus : List (List ℚ)) (cargs : List (List ℤ)) (theta : ℚ) (ip : Bool)
    (agipTopk topk : ℕ) (cps : List (ℕ × ℚ)) (htheta : theta ≠ 0)
    (hc : topkPairs (approxScores qe qa corpus cargs theta ip) agipTopk
      = some cps) :
    gipQuery qe qa corpus cargs theta ip true agipTopk topk
      = bruteOnShortlist qe qa corpus cargs (cps.map Prod.fst) topk := by
  simp only [gipQuery, bruteOnShortlist, if_neg htheta, hc, if_true,
    Option.some_bind]

theorem C3_rerank_refines_bruteforce_witness :
    gipQuery [1, 2] [0, 0] [[1, 0], [0, 1]] [[0, 0], [0, 0]] 1 false true 1 1
      = bruteOnShortlist [1, 2] [0, 0] [[1, 0], [0, 1]] [[0, 0], [0, 0]]
          ([((1 : ℕ), (2 : ℚ))].map Prod.fst) 1 :=
  C3_rerank_refines_bruteforce [1, 2] [0, 0] [[1, 0], [0, 1]] [[0, 0], [0, 0]]
    1 false 1 1 [(1, 2)] (by norm_num)
    (by norm_num [approxScores, prunedGipScoresAll, importantIdx, numIdx,
      gatherQ, gatherZ, maskedEmb, dot, topkPairs, sortDesc, indexed,
      List.insertionSort, List.orderedInsert, rankLe])

theorem importantIdx_eq_nil {qe : List ℚ} {theta : ℚ}
    (h : numIdx qe theta = 0) : importantIdx qe theta = [] := by
  simp [importantIdx, h]

theorem prunedGipScoresAll_nil_imp (qe : List ℚ) (qa : List ℤ)
    (corpus : List (List ℚ)) (cargs : List (List ℤ)) :
    prunedGipScoresAll qe qa corpus cargs []
      = (corpus.zip cargs).map (fun _ => 0) := by
  simp [prunedGipScoresAll, gatherQ, gatherZ, maskedEmb, dot]

theorem getD_map_zero {β : Type} (l : List β) (i : ℕ) :
    (l.map (fun _ => (0 : ℚ))).getD i 0 = 0 := by
  rcases Nat.lt_or_ge i (l.map fun _ => (0 : ℚ)).length with h | h
  · rw [List.getD_eq_getElem _ _ h]; simp
  · rw [List.getD_eq_default _ _ h]

/-- C4 counterexample: at `theta = 2` the query `[1]` has an empty
important-dimension set, and the code does **not** fall back to scoring
over every dimension: the returned score is `0` while the brute-force
exact-GIP result scores the single candidate `5`. -/
theorem C4_counterexample :
    gipQuery [1] [0] [[5]] [[0]] 2 false false 1 1
      ≠ bruteForceGipQuery [1] [0] [[5]] [[0]] 1 := by
  norm_num [gipQuery, bruteForceGipQuery, approxScores, prunedGipScoresAll,
    importantIdx, numIdx, gatherQ, gatherZ, maskedEmb, dot, topkPairs,
    sortDesc, indexed, List.insertionSort, List.orderedInsert, rankLe,
    gipScore, gipScoresAll]

/-- C4 amended: for `theta > 0` with an empty important-dimension set the
selector does not fall back to every dimension; it sums over zero
dimensions, so every candidate's first-stage score is `0` and (with rerank
off) the returned scores are all `0`. The run does not crash provided
`topk` does not exceed the corpus size. -/
theorem C4_empty_important_dims (qe : List ℚ) (qa : List ℤ)
    (corpus : List (List ℚ)) (cargs : List (List ℤ)) (theta : ℚ)
    (agipTopk topk : ℕ) (htheta : theta ≠ 0) (hnum : numIdx qe theta = 0)
    (hlen : cargs.length = corpus.length) (htopk : topk ≤ corpus.length) :
    ∃ cands, gipQuery qe qa corpus cargs theta false false agipTopk topk
        = some (cands, List.replicate topk 0) := by
  have hps : approxScores qe qa corpus cargs theta false
      = (corpus.zip cargs).map (fun _ => 0) := by
    simp [approxScores, importantIdx_eq_nil hnum, prunedGipScoresAll_nil_imp]
  have hlenp : (approxScores qe qa corpus cargs theta false).length
      = corpus.length := by
    rw [hps]; simp [List.length_zip, hlen]
  have htp := topkPairs_isSome (approxScores qe qa corpus cargs theta false)
    topk (hlenp ▸ htopk)
  refine ⟨((sortDesc (indexed (approxScores qe qa corpus cargs theta false))).take
    topk).map Prod.fst, ?_⟩
  rw [gipQuery, if_neg htheta]
  simp only [Bool.false_eq_true, if_false, htp, Option.map_some']
  have hz : ∀ i, (approxScores qe qa corpus cargs theta false).getD i 0 = 0 := by
    intro i; rw [hps]; exact getD_map_zero _ _
  have hmap : (((sortDesc (indexed (approxScores qe qa corpus cargs theta
      false))).take topk).map Prod.fst).map
        (fun i => (approxScores qe qa corpus cargs theta false).getD i 0)
      = List.replicate topk 0 := by
    rw [List.map_congr_left (fun i _ => hz i), List.map_const',
      List.length_map, List.length_take,
      (sortDesc_perm (indexed (approxScores qe qa corpus cargs theta
        false))).length_eq, length_indexed, hlenp,
      Nat.min_eq_left htopk]
  rw [hmap]

theorem C4_empty_important_dims_witness :
    ∃ cands, gipQuery [1] [0] [[5]] [[0]] 2 false false 1 1
        = some (cands, List.replicate 1 0) :=
  C4_empty_important_dims [1] [0] [[5]] [[0]] 2 1 1 (by norm_num)
    (by decide) rfl (by decide)

theorem length_approxScores (qe : List ℚ) (qa : List ℤ)
    (corpus : List (List ℚ)) (cargs : List (List ℤ)) (theta : ℚ) (ip : Bool)
    (hlen : cargs.length = corpus.length) :
    (approxScores qe qa corpus cargs theta ip).length = corpus.length := by
  cases ip <;>
    simp [approxScores, ipScoresAll, prunedGipScoresAll, List.length_zip, hlen]

/-- C5 counterexample: with reranking enabled and `agip_topk = 1 <
topk = 2`, the final `torch.topk` over the one-element shortlist raises
(`k` out of range), modelled as `none`: the run crashes instead of
silently returning a result truncated to the shortlist size. -/
theorem C5_counterexample :
    gipQuery [1] [0] [[5]] [[0]] 1 false true 1 2 = none := by
  norm_num [gipQuery, approxScores, prunedGipScoresAll, importantIdx, numIdx,
    gatherQ, gatherZ, maskedEmb, dot, topkPairs, sortDesc, indexed,
    List.insertionSort, List.orderedInsert, rankLe, gipScore]

/-- C5 amended: when reranking is enabled and `agip_topk < K`, selecting the
final top-K from the size-`agip_topk` shortlist fails (`torch.topk`
requires `k` at most the number of candidates), so the run errors out
rather than truncating; the silent truncation to the shortlist size happens
only in the PQ branch without reranking, where Python slicing is used. -/
theorem C5_small_shortlist_crashes (qe : List ℚ) (qa : List ℤ)
    (corpus : List (List ℚ)) (cargs : List (List ℤ)) (theta : ℚ) (ip : Bool)
    (agipTopk topk : ℕ) (scoresRow : List ℚ) (candRow : List ℕ)
    (htheta : theta ≠ 0) (hlen : cargs.length = corpus.length)
    (hagip : agipTopk ≤ corpus.length) (hlt : agipTopk < topk) :
    gipQuery qe qa corpus cargs theta ip true agipTopk topk = none
    ∧ (pqNoRerankQuery scoresRow candRow topk).1.length = min topk candRow.length
    ∧ (pqNoRerankQuery scoresRow candRow topk).2.length
        = min topk scoresRow.length := by
  refine ⟨?_, by simp [pqNoRerankQuery], by simp [pqNoRerankQuery]⟩
  have hlenp : (approxScores qe qa corpus cargs theta ip).length
      = corpus.length := length_approxScores qe qa corpus cargs theta ip hlen
  have htp := topkPairs_isSome (approxScores qe qa corpus cargs theta ip)
    agipTopk (hlenp ▸ hagip)
  have hslen : ((((sortDesc (indexed (approxScores qe qa corpus cargs theta
      ip))).take agipTopk).map Prod.fst).map
        (fun c => gipScore qe qa (corpus.getD c []) (cargs.getD c []))).length
      = agipTopk := by
    simp [List.length_map, List.length_take,
      (sortDesc_perm (indexed (approxScores qe qa corpus cargs theta
        ip))).length_eq, length_indexed, hlenp, Nat.min_eq_left hagip]
  rw [gipQuery, if_neg htheta]
  simp only [if_true, htp, Option.some_bind]
  rw [topkPairs_eq_none _ _ (by rw [hslen]; exact hlt)]
  rfl

theorem C5_small_shortlist_crashes_witness :
    gipQuery [1] [0] [[5]] [[0]] 1 false true 1 2 = none
    ∧ (pqNoRerankQuery [(9 : ℚ), 8] [4, 5] 2).1.length = min 2 [4, 5].length
    ∧ (pqNoRerankQuery [(9 : ℚ), 8] [4, 5] 2).2.length
        = min 2 [(9 : ℚ), 8].length :=
  C5_small_shortlist_crashes [1] [0] [[5]] [[0]] 1 false 1 2 [9, 8] [4, 5]
    (by norm_num) rfl (by decide) (by decide)

/-- Scores selected through a sorted index/score pair list are at most `k`
long and non-increasing. -/
theorem selected_spec {scores : List ℚ} {ps : List (ℕ × ℚ)} {k : ℕ}
    (hlen : ps.length ≤ k) (hpw : ps.Pairwise rankLe)
    (hmem : ∀ p ∈ ps, p.2 = scores.getD p.1 0) :
    ((ps.map Prod.fst).map (fun i => scores.getD i 0)).length ≤ k
    ∧ ((ps.map Prod.fst).map (fun i => scores.getD i 0)).Pairwise
        (fun a b => b ≤ a) := by
  have heq : (ps.map Prod.fst).map (fun i => scores.getD i 0)
      = ps.map Prod.snd := by
    rw [List.map_map]
    exact List.map_congr_left (fun p hp => (hmem p hp).symm)
  rw [heq]
  constructor
  · rw [List.length_map]; exact hlen
  · refine List.Pairwise.map Prod.snd ?_ hpw
    rintro a b (hab | ⟨hab, -⟩)
    · exact le_of_lt hab
    · exact le_of_eq hab.symm

/-- Whatever branch `gipQuery` returns through, the score list it returns
comes from a successful `topkPairs` selection at `topk`. -/
theorem gipQuery_some_shape {qe : List ℚ} {qa : List ℤ}
    {corpus : List (List ℚ)} {cargs : List (List ℤ)} {theta : ℚ}
    {ip rerank : Bool} {agipTopk topk : ℕ} {c : List ℕ} {s : List ℚ}
    (h : gipQuery qe qa corpus cargs theta ip rerank agipTopk topk
      = some (c, s)) :
    ∃ scores ps, topkPairs scores topk = some ps
      ∧ s = (ps.map Prod.fst).map (fun i => scores.getD i 0) := by
  rw [gipQuery] at h
  split at h
  · rcases Option.map_eq_some'.mp h with ⟨ps, hps, heq⟩
    refine ⟨_, ps, hps, ?_⟩
    have := congrArg Prod.snd heq
    simpa using this.symm
  · split at h
    · rcases Option.bind_eq_some.mp h with ⟨cps, _, h2⟩
      rcases Option.map_eq_some'.mp h2 with ⟨sps, hsps, heq⟩
      refine ⟨_, sps, hsps, ?_⟩
      have := congrArg Prod.snd heq
      simpa using this.symm
    · rcases Option.map_eq_some'.mp h with ⟨ps, hps, heq⟩
      refine ⟨_, ps, hps, ?_⟩
      have := congrArg Prod.snd heq
      simpa using this.symm

/-- Same shape fact for the PQ rerank stage. -/
theorem pqRerankQuery_some_shape {qe : List ℚ} {qa : List ℤ}
    {corpus : List (List ℚ)} {cargs : List (List ℤ)} {candidate : List ℕ}
    {topk : ℕ} {c : List ℕ} {s : List ℚ}
    (h : pqRerankQuery qe qa corpus cargs candidate topk = some (c, s)) :
    ∃ scores ps, topkPairs scores topk = some ps
      ∧ s = (ps.map Prod.fst).map (fun i => scores.getD i 0) := by
  rw [pqRerankQuery] at h
  rcases Option.map_eq_some'.mp h with ⟨sps, hsps, heq⟩
  refine ⟨_, sps, hsps, ?_⟩
  have := congrArg Prod.snd heq
  simpa using this.symm

/-- C6: in every retrieval mode — the `GIP_retrieval` loop in all its flag
combinations, the `IP_retrieval` loop, the PQ rerank stage, and the PQ
non-rerank slice (whose input row the external index returns sorted) — the
returned score list has length at most `topk` and is non-increasing at
adjacent ranks. -/
theorem C6_results_bounded_and_sorted (qe : List ℚ) (qa : List ℤ)
    (corpus : List (List ℚ)) (cargs : List (List ℤ)) (theta : ℚ)
    (ip rerank : Bool) (agipTopk topk : ℕ) (candidate : List ℕ)
    (scoresRow : List ℚ) (candRow : List ℕ) :
    (∀ c s, gipQuery qe qa corpus cargs theta ip rerank agipTopk topk
        = some (c, s) →
        s.length ≤ topk ∧ ∀ r, r + 1 < s.length →
          s.getD (r + 1) 0 ≤ s.getD r 0)
    ∧ ((ipQuery qe corpus topk).2.length ≤ topk
        ∧ ∀ r, r + 1 < (ipQuery qe corpus topk).2.length →
            (ipQuery qe corpus topk).2.getD (r + 1) 0
              ≤ (ipQuery qe corpus topk).2.getD r 0)
    ∧ (∀ c s, pqRerankQuery qe qa corpus cargs candidate topk = some (c, s) →
        s.length ≤ topk ∧ ∀ r, r + 1 < s.length →
          s.getD (r + 1) 0 ≤ s.getD r 0)
    ∧ (scoresRow.Pairwise (fun a b => b ≤ a) →
        (pqNoRerankQuery scoresRow candRow topk).2.length ≤ topk
        ∧ ∀ r, r + 1 < (pqNoRerankQuery scoresRow candRow topk).2.length →
            (pqNoRerankQuery scoresRow candRow topk).2.getD (r + 1) 0
              ≤ (pqNoRerankQuery scoresRow candRow topk).2.getD r 0) := by
  refine ⟨?_, ?_, ?_, ?_⟩
  · intro c s h
    obtain ⟨scores, ps, hps, rfl⟩ := gipQuery_some_shape h
    obtain ⟨hl, hpw, hmem⟩ := topkPairs_eq_some hps
    obtain ⟨h1, h2⟩ := selected_spec (le_of_eq hl) hpw hmem
    exact ⟨h1, pairwise_ge_adjacent h2⟩
  · have hform : (ipQuery qe corpus topk).2
        = (((sortDesc (indexed (ipScoresAll qe corpus))).take topk).map
            Prod.fst).map (fun i => (ipScoresAll qe corpus).getD i 0) := by
      rw [ipQuery, argsortDesc]
      simp only [List.map_take]
    rw [hform]
    have hps := List.Pairwise.sublist (List.take_sublist topk _)
      (sortDesc_sorted (indexed (ipScoresAll qe corpus)))
    have hmem : ∀ p ∈ (sortDesc (indexed (ipScoresAll qe corpus))).take topk,
        p.2 = (ipScoresAll qe corpus).getD p.1 0 := fun p hp =>
      snd_of_mem_sortDesc_indexed ((List.take_sublist topk _).mem hp)
    have hlen : ((sortDesc (indexed (ipScoresAll qe corpus))).take topk).length
        ≤ topk := by
      rw [List.length_take]; exact Nat.min_le_left _ _
    obtain ⟨h1, h2⟩ := selected_spec hlen hps hmem
    exact ⟨h1, pairwise_ge_adjacent h2⟩
  · intro c s h
    obtain ⟨scores, ps, hps, rfl⟩ := pqRerankQuery_some_shape h
    obtain ⟨hl, hpw, hmem⟩ := topkPairs_eq_some hps
    obtain ⟨h1, h2⟩ := selected_spec (le_of_eq hl) hpw hmem
    exact ⟨h1, pairwise_ge_adjacent h2⟩
  · intro hsorted
    constructor
    · show (scoresRow.take topk).length ≤ topk
      rw [List.length_take]; exact Nat.min_le_left _ _
    · exact pairwise_ge_adjacent
        (List.Pairwise.sublist (List.take_sublist topk _) hsorted)

theorem C6_results_bounded_and_sorted_witness :
    ([(3 : ℚ), 2].length ≤ 2
      ∧ ∀ r, r + 1 < [(3 : ℚ), 2].length →
          [(3 : ℚ), 2].getD (r + 1) 0 ≤ [(3 : ℚ), 2].getD r 0) :=
  (C6_results_bounded_and_sorted [1, 2] [0, 1] [[1, 1], [2, 0]]
    [[0, 1], [0, 1]] 0 false false 10 2 [] [] []).1 [0, 1] [3, 2]
    (by norm_num [gipQuery, gipScoresAll, gipScore, maskedEmb, dot, topkPairs,
      sortDesc, indexed, List.insertionSort, List.orderedInsert, rankLe])

/-- Concatenating the slices from shard `j` on reconstructs the tail of the
list from position `s * j`, for any slice width `s`. -/
theorem shard_join_aux {α : Type} (l : List α) (s t : ℕ) :
    ∀ d j, j + d + 1 = t →
      ((List.range' j (t - j)).map (fun i =>
        if i = t - 1 then l.drop (s * i) else (l.drop (s * i)).take s)).flatten
        = l.drop (s * j) := by
  intro d
  induction d with
  | zero =>
      intro j hj
      have ht : t - j = 1 := by omega
      have hj1 : j = t - 1 := by omega
      rw [ht, List.range'_succ]
      simp [hj1]
  | succ n ih =>
      intro j hj
      have ht : t - j = n + 2 := by omega
      rw [ht, List.range'_succ]
      simp only [List.map_cons, List.flatten_cons]
      rw [if_neg (by omega : ¬ j = t - 1)]
      have hrange : List.range' (j + 1) (n + 1) = List.range' (j + 1) (t - (j + 1)) := by
        congr 1; omega
      rw [hrange, ih (j + 1) (by omega)]
      rw [show s * (j + 1) = s * j + s by ring, ← List.drop_drop]
      exact List.take_append_drop s (l.drop (s * j))

/-- C7: with `s = N / total`, shard `idx < total - 1` is the slice
`[s*idx, s*(idx+1))`, the last shard is `[s*(total-1), N)`, and
concatenating all shard slices in index order reconstructs the full list
with no gaps and no overlaps. The statement is polymorphic in the element
type, so it covers the corpus vectors, the argument indices and the doc
ids alike. -/
theorem C7_shard_reconstruction {α : Type} (l : List α) (total : ℕ)
    (ht : 1 ≤ total) :
    (∀ idx, idx < total - 1 →
        shardSlice l total idx
          = (l.drop (l.length / total * idx)).take (l.length / total))
    ∧ shardSlice l total (total - 1)
        = l.drop (l.length / total * (total - 1))
    ∧ ((List.range total).map (fun i => shardSlice l total i)).flatten = l := by
  refine ⟨?_, ?_, ?_⟩
  · intro idx hidx
    simp only [shardSlice]
    rw [if_neg (by omega)]
  · simp [shardSlice]
  · have hall : ∀ i ∈ List.range total, shardSlice l total i
        = (fun i => if i = total - 1 then l.drop (l.length / total * i)
            else (l.drop (l.length / total * i)).take (l.length / total)) i :=
      fun i _ => rfl
    rw [List.map_congr_left hall, List.range_eq_range']
    have haux := shard_join_aux l (l.length / total) total (total - 1) 0
      (by omega)
    simpa using haux

theorem C7_shard_reconstruction_witness :
    (∀ idx, idx < 2 - 1 →
        shardSlice [10, 20, 30] 2 idx
          = (([10, 20, 30].drop ([10, 20, 30].length / 2 * idx)).take
              ([10, 20, 30].length / 2)))
    ∧ shardSlice [10, 20, 30] 2 (2 - 1)
        = [10, 20, 30].drop ([10, 20, 30].length / 2 * (2 - 1))
    ∧ ((List.range 2).map (fun i => shardSlice [10, 20, 30] 2 i)).flatten
        = [10, 20, 30] :=
  C7_shard_reconstruction [10, 20, 30] 2 (by decide)

/-- C8: a row appears in the written output for a query exactly when it
sits at some position `rank` of the ranked result, resolves to a DocId
different from the query id, and is written with the 1-based rank
`rank + 1` of its position *before* filtering — so an excluded self-hit
leaves a hole in the rank numbering instead of triggering renumbering. The
concrete run writes ranks 1 and 3, skipping the self-hit at rank 2. -/
theorem C8_selfhit_filter {Id : Type} [DecidableEq Id] (qid dflt : Id)
    (docids : List Id) (result : List ℕ) (score : List ℚ) (d : Id) (r : ℕ)
    (sc : ℚ) :
    ((d, r, sc) ∈ writeRows qid dflt docids result score ↔
      ∃ rank, rank < result.length
        ∧ d = docids.getD (result.getD rank 0) dflt ∧ d ≠ qid
        ∧ r = rank + 1 ∧ sc = score.getD rank 0)
    ∧ writeRows (7 : ℤ) 0 [1, 7, 2] [0, 1, 2] [9, 8, 6]
        = [(1, 1, 9), (2, 3, 6)] := by
  constructor
  · simp only [writeRows, List.mem_filterMap, List.mem_range]
    constructor
    · rintro ⟨rank, hrank, hsome⟩
      refine ⟨rank, hrank, ?_⟩
      by_cases hne : docids.getD (result.getD rank 0) dflt ≠ qid
      · rw [if_pos hne] at hsome
        simp only [Option.some.injEq, Prod.mk.injEq] at hsome
        obtain ⟨h1, h2, h3⟩ := hsome
        exact ⟨h1.symm, h1 ▸ hne, h2.symm, h3.symm⟩
      · rw [if_neg hne] at hsome
        exact absurd hsome (by simp)
    · rintro ⟨rank, hrank, hd, hne, hr, hsc⟩
      refine ⟨rank, hrank, ?_⟩
      rw [if_pos (hd ▸ hne), hr, hsc, hd]
  · decide

theorem dot_append (xs1 xs2 ys1 ys2 : List ℚ) (h : xs1.length = ys1.length) :
    dot (xs1 ++ xs2) (ys1 ++ ys2) = dot xs1 ys1 + dot xs2 ys2 := by
  rw [dot, List.zip_append h, List.map_append, List.sum_append]; rfl

theorem length_maskedEmb (qa : List ℤ) (ce : List ℚ) (ca : List ℤ) :
    (maskedEmb qa ce ca).length = min (min ca.length qa.length) ce.length := by
  simp [maskedEmb, List.length_zip]

theorem maskedEmb_append (qa1 qa2 : List ℤ) (ce1 ce2 : List ℚ)
    (ca1 ca2 : List ℤ) (h1 : ca1.length = qa1.length)
    (h2 : ca1.length = ce1.length) :
    maskedEmb (qa1 ++ qa2) (ce1 ++ ce2) (ca1 ++ ca2)
      = maskedEmb qa1 ce1 ca1 ++ maskedEmb qa2 ce2 ca2 := by
  rw [maskedEmb, List.zip_append h1,
    List.zip_append (by rw [List.length_zip, ← h1, Nat.min_self, h2]),
    List.map_append]
  rfl

theorem maskedEmb_replicate_one (ce : List ℚ) :
    maskedEmb (List.replicate ce.length 1) ce (List.replicate ce.length 1)
      = ce := by
  induction ce with
  | nil => rfl
  | cons x t ih =>
      have hstep : maskedEmb (List.replicate (x :: t).length 1) (x :: t)
          (List.replicate (x :: t).length 1)
          = x :: maskedEmb (List.replicate t.length 1) t
              (List.replicate t.length 1) := by
        simp [maskedEmb, List.replicate_succ]
      rw [hstep, ih]

theorem padArg_getD_sentinel (arg : List ℤ) (c : ℕ) (j : ℕ)
    (h1 : arg.length ≤ j) (h2 : j < arg.length + c) :
    (padArg arg c).getD j 0 = 1 := by
  have hlen : (padArg arg c).length = arg.length + c := by
    simp [padArg]
  rw [padArg, List.getD_eq_getElem _ _ (by simpa [padArg] using hlen ▸ h2),
    List.getElem_append_right h1, List.getElem_replicate]

/-- C9 counterexample: both the query and the corpus argument rows are
padded with the constant id `1`, so a padded dimension always matches and
contributes. Padding `[0]` to dimension 2 on both sides, the padded
dimension contributes `3 * 2 = 6` to the gated score — had padded
dimensions never matched, the score would equal the unpadded score `0`. -/
theorem C9_counterexample :
    gipScore [0, 2] (padArg [0] 1) [0, 3] (padArg [0] 1) = 6
    ∧ gipScore [0] [0] [0] [0] = 0 := by
  constructor <;> norm_num [gipScore, padArg, maskedEmb, dot]

/-- C9 amended: padding dimensions carry the sentinel id `1` on **both**
the query and the corpus side, so every padded dimension satisfies the
gating condition and contributes its plain product: the gated score of the
padded vectors is the gated score of the unpadded prefix plus the full
inner product of the padded blocks. -/
theorem C9_padding_matches_and_contributes (qe1 qe2 ce1 ce2 : List ℚ)
    (qa ca : List ℤ) (c D : ℕ) (hqa : qa.length = D) (hca : ca.length = D)
    (hq1 : qe1.length = D) (hc1 : ce1.length = D) (_hq2 : qe2.length = c)
    (hc2 : ce2.length = c) :
    (∀ j, D ≤ j → j < D + c →
        (padArg ca c).getD j 0 = 1 ∧ (padArg qa c).getD j 0 = 1)
    ∧ gipScore (qe1 ++ qe2) (padArg qa c) (ce1 ++ ce2) (padArg ca c)
        = gipScore qe1 qa ce1 ca + dot ce2 qe2 := by
  constructor
  · intro j hj1 hj2
    exact ⟨padArg_getD_sentinel ca c j (by rw [hca]; exact hj1)
        (by rw [hca]; exact hj2),
      padArg_getD_sentinel qa c j (by rw [hqa]; exact hj1)
        (by rw [hqa]; exact hj2)⟩
  · rw [gipScore, padArg, padArg,
      maskedEmb_append qa _ ce1 ce2 ca _ (by rw [hca, hqa]) (by rw [hca, hc1]),
      dot_append _ _ qe1 qe2
        (by rw [length_maskedEmb, hca, hqa, hc1, Nat.min_self, Nat.min_self, hq1])]
    congr 1
    rw [← hc2, maskedEmb_replicate_one]

theorem C9_padding_matches_and_contributes_witness :
    (∀ j, 1 ≤ j → j < 1 + 1 →
        (padArg [(0 : ℤ)] 1).getD j 0 = 1 ∧ (padArg [(0 : ℤ)] 1).getD j 0 = 1)
    ∧ gipScore ([0] ++ [2]) (padArg [0] 1) ([0] ++ [3]) (padArg [0] 1)
        = gipScore [0] [0] [0] [0] + dot [3] [2] :=
  C9_padding_matches_and_contributes [0] [2] [0] [3] [0] [0] 1 1
    rfl rfl rfl rfl rfl rfl

theorem map_snd_indexed (scores : List ℚ) :
    (indexed scores).map Prod.snd = scores := by
  refine List.ext_getElem (by simp [indexed]) ?_
  intro n h1 h2
  simp only [indexed, List.getElem_map, List.getElem_range]
  exact List.getD_eq_getElem scores 0 h2

/-- The score components of the descending index sort are the scores sorted
in plain descending order. -/
theorem sortDesc_map_snd (scores : List ℚ) :
    (sortDesc (indexed scores)).map Prod.snd
      = scores.insertionSort scoreGe := by
  refine @List.eq_of_perm_of_sorted ℚ scoreGe inferInstance _ _ ?_ ?_ ?_
  · refine ((sortDesc_perm (indexed scores)).map Prod.snd).trans ?_
    rw [map_snd_indexed]
    exact (List.perm_insertionSort scoreGe scores).symm
  · refine List.Pairwise.map Prod.snd ?_ (sortDesc_sorted (indexed scores))
    rintro a b (hab | ⟨hab, -⟩)
    · exact le_of_lt hab
    · exact le_of_eq hab.symm
  · exact List.sorted_insertionSort scoreGe scores

/-- C10: when the persisted query snapshot yields no usable argument-index
array (the load raised and left `query_arg_idxs = None`), the engine
silently dispatches every query to plain inner-product retrieval: the
result is `ipQuery`, it does not depend on the corpus argument indices, no
error is reported (the dispatch always returns a value), and the returned
scores are exactly the `topk` largest plain dot products over all
dimensions, in descending order. -/
theorem C10_ip_fallback (qe : List ℚ) (corpus : List (List ℚ))
    (cargs cargs' : List (List ℤ)) (theta : ℚ) (ip rerank : Bool)
    (agipTopk topk : ℕ) :
    dispatchQuery none qe corpus cargs theta ip rerank agipTopk topk
      = some (ipQuery qe corpus topk)
    ∧ dispatchQuery none qe corpus cargs theta ip rerank agipTopk topk
      = dispatchQuery none qe corpus cargs' theta ip rerank agipTopk topk
    ∧ (ipQuery qe corpus topk).2
      = ((ipScoresAll qe corpus).insertionSort scoreGe).take topk := by
  refine ⟨rfl, rfl, ?_⟩
  have hform : (ipQuery qe corpus topk).2
      = (((sortDesc (indexed (ipScoresAll qe corpus))).take topk).map
          Prod.fst).map (fun i => (ipScoresAll qe corpus).getD i 0) := by
    rw [ipQuery, argsortDesc]
    simp only [List.map_take]
  rw [hform, List.map_map]
  have hcongr : List.map ((fun i => (ipScoresAll qe corpus).getD i 0) ∘ Prod.fst)
      ((sortDesc (indexed (ipScoresAll qe corpus))).take topk)
      = List.map Prod.snd
          ((sortDesc (indexed (ipScoresAll qe corpus))).take topk) :=
    List.map_congr_left (fun p hp =>
      (snd_of_mem_sortDesc_indexed ((List.take_sublist topk _).mem hp)).symm)
  rw [hcongr, List.map_take, sortDesc_map_snd]

end GipRetrieval
